import Mathlib

/-!
# Verification of the water-tracker drought pipeline

Shallow embedding, in Lean 4, of the core numeric components of the
`water-tracker` repository:

* `src/water_tracker/transformers/trends.py`
  (`TrendProperties`, `TrendThreshold`, `TrendEvaluation`, `AverageTrend`);
* `notebooks/IndicateursSecheresse/data_processing/water_tracker.py`
  (`WaterTracker.clean_timeseries`,
  `WaterTracker.standardized_indicator_to_level_code`);
* `notebooks/ImpactSecheresse/RestrictionEauClass.py`
  (`RestrictionEau.clean_all_restriction_data`);
* `notebooks/ImpactSecheresse_Agri_Et_Bat/traitement_cds.py`
  (`humidity_class`).

Modelling conventions:

* Python / NumPy floats are modelled by `PFloat`: a rational number,
  `nan`, `inf` or `ninf`, with the IEEE-754 comparison semantics the code
  relies on (every comparison against `nan` is false).  The code under
  verification only ever *compares* floats coming from configuration
  tables; the arithmetic it performs (day counts divided by 365.25,
  quantile interpolation) happens on exact values, which we carry in `ℚ`.
* `datetime.date` is modelled by `PyDate` (proleptic Gregorian calendar)
  with the ordinal-based subtraction used by `(a - b).days`, and the
  `pandas.DateOffset(years=n)` subtraction which clips Feb 29 to Feb 28.
* DataFrames are modelled at row level as lists of records; for the
  column-collision claim a column-level model (`Frame`) is used, since
  that claim is about column names, not cell values.
* Raising an exception is modelled by `Except`; a Python function that
  falls off the end of its body (returning `None`) is modelled by
  `Option` with result `none`.
-/

/-! ## A model of the Python floats used by the classifiers -/

/-- Model of a Python float as used by the threshold code: an exact
rational, `nan`, or an infinity.  The classifiers only compare floats,
so only the comparison operators are modelled. -/
inductive PFloat where
  | nan : PFloat
  | ninf : PFloat
  | val (q : ℚ) : PFloat
  | inf : PFloat
deriving DecidableEq, Repr

namespace PFloat

/-- IEEE-754 `<` on the float model: any comparison with `nan` is false. -/
def flt : PFloat → PFloat → Bool
  | nan, _ => false
  | _, nan => false
  | ninf, ninf => false
  | ninf, _ => true
  | _, ninf => false
  | inf, _ => false
  | val _, inf => true
  | val a, val b => a < b

/-- IEEE-754 `<=` on the float model: any comparison with `nan` is false. -/
def fle : PFloat → PFloat → Bool
  | nan, _ => false
  | _, nan => false
  | ninf, _ => true
  | _, ninf => false
  | _, inf => true
  | inf, val _ => false
  | val a, val b => a ≤ b

/-- `np.isnan`. -/
def isNan : PFloat → Bool
  | nan => true
  | _ => false

end PFloat

/-! ## Dates: `datetime.date` and `pandas.DateOffset(years=n)`

`trends.py` subtracts dates (`(measure_end - measure_start).days`) and
subtracts a `pd.DateOffset(years=n)` from a date.  We model dates in the
proleptic Gregorian calendar used by `datetime.date`. -/

/-- A calendar date (proleptic Gregorian), as `datetime.date`. -/
structure PyDate where
  year : ℕ
  month : ℕ
  day : ℕ
deriving DecidableEq, Repr

/-- Gregorian leap-year test. -/
def isLeap (y : ℕ) : Bool :=
  y % 4 == 0 && (y % 100 != 0 || y % 400 == 0)

/-- Days in the months preceding month `m` (1-based) of a non-leap year. -/
def daysBeforeMonth (m : ℕ) : ℕ :=
  [0, 0, 31, 59, 90, 120, 151, 181, 212, 243, 273, 304, 334].getD m 0

/-- Day-of-year number (1..366) of a date, as `pandas` `Series.dt.day_of_year`. -/
def dayOfYear (d : PyDate) : ℕ :=
  daysBeforeMonth d.month + (if isLeap d.year && d.month > 2 then 1 else 0) + d.day

/-- Proleptic-Gregorian ordinal of a date (as `datetime.date.toordinal`):
day count from a fixed epoch, so that `(a - b).days = toOrdinal a - toOrdinal b`. -/
def toOrdinal (d : PyDate) : ℕ :=
  365 * (d.year - 1) + (d.year - 1) / 4 - (d.year - 1) / 100 + (d.year - 1) / 400
    + dayOfYear d

/-- `(a - b).days` for two `datetime.date`s. -/
def diffDays (a b : PyDate) : ℤ :=
  (toOrdinal a : ℤ) - (toOrdinal b : ℤ)

/-- `d - pandas.DateOffset(years=n)`: same month and day with the year
decreased by `n`, except that Feb 29 is clipped to Feb 28 when the
target year is not a leap year. -/
def subYears (d : PyDate) (n : ℕ) : PyDate :=
  let y := d.year - n
  if d.month = 2 ∧ d.day = 29 ∧ ¬ isLeap y then ⟨y, 2, 28⟩ else ⟨y, d.month, d.day⟩

/-- Python's built-in `round` on an exact value: round half to even. -/
def pythonRound (q : ℚ) : ℤ :=
  let f : ℤ := ⌊q⌋
  let r : ℚ := q - f
  if r < 1/2 then f
  else if 1/2 < r then f + 1
  else if f % 2 = 0 then f else f + 1

/-! ## `TrendProperties` (`trends.py`, lines 28-138) -/

/-- The four constructor inputs of `TrendProperties`. -/
structure TrendInputs where
  measure_start : PyDate
  measure_end : PyDate
  years_not_in_trend : ℕ
  min_trend_length_year : ℕ
deriving Repr

/-- `TrendProperties._has_enough_data`:
`(measure_end - measure_start).days / 365.25 >= years_not_in_trend + min_trend_length_year`. -/
def hasEnoughDataCalc (i : TrendInputs) : Bool :=
  let measure_period : ℤ := diffDays i.measure_end i.measure_start
  let measure_years : ℚ := (measure_period : ℚ) / (1461/4)
  decide (measure_years ≥ (i.years_not_in_trend + i.min_trend_length_year : ℕ))

/-- The state built by `TrendProperties.__init__`: the stored flag and the
(optional) trend boundaries `_start`, `_end`. -/
structure TrendProperties where
  years_not_in_trend : ℕ
  min_trend_length_year : ℕ
  has_enough_data : Bool
  start_ : Option PyDate
  end_ : Option PyDate
deriving Repr

/-- `TrendProperties.__init__`: computes `has_enough_data`; if false both
boundaries are `None`, otherwise `_get_trend_boundaries` gives
`(measure_start, measure_end - DateOffset(years=years_not_in_trend))`. -/
def mkTrendProperties (i : TrendInputs) : TrendProperties :=
  let enough := hasEnoughDataCalc i
  if enough then
    { years_not_in_trend := i.years_not_in_trend
      min_trend_length_year := i.min_trend_length_year
      has_enough_data := enough
      start_ := some i.measure_start
      end_ := some (subYears i.measure_end i.years_not_in_trend) }
  else
    { years_not_in_trend := i.years_not_in_trend
      min_trend_length_year := i.min_trend_length_year
      has_enough_data := enough
      start_ := none
      end_ := none }

/-- `TrendProperties.nb_years_history`: `0` when a boundary is `None`, else
`round((self._end - self._start).days / 365.25)`. -/
def nbYearsHistory (t : TrendProperties) : ℤ :=
  match t.start_, t.end_ with
  | some s, some e => pythonRound ((diffDays e s : ℚ) / (1461/4))
  | _, _ => 0

/-! ## `TrendThreshold` and `TrendEvaluation` (`trends.py`, lines 141-250) -/

/-- `TrendThreshold`: a named half-open bucket with possibly-NaN bounds. -/
structure TrendThreshold where
  return_value : String
  minimum_value : PFloat
  maximum_value : PFloat
deriving DecidableEq, Repr

namespace TrendThreshold

/-- `TrendThreshold.verifies_minimum`: `True` if the minimum is NaN,
else `value >= minimum_value`.  The value compared is always an actual
number in the code (it is `nb_years_history`), carried here as a `ℚ`. -/
def verifies_minimum (t : TrendThreshold) (value : ℚ) : Bool :=
  if t.minimum_value.isNan then true else PFloat.fle t.minimum_value (.val value)

/-- `TrendThreshold.verifies_maximum`: `True` if the maximum is NaN,
else `value < maximum_value`. -/
def verifies_maximum (t : TrendThreshold) (value : ℚ) : Bool :=
  if t.maximum_value.isNan then true else PFloat.flt (.val value) t.maximum_value

/-- `TrendThreshold.is_in_threshold`, applied to the years-history value. -/
def is_in_threshold (t : TrendThreshold) (years_history : ℚ) : Bool :=
  t.verifies_minimum years_history && t.verifies_maximum years_history

end TrendThreshold

/-- `ThresholdError`: raised by `TrendEvaluation.evaluate` when no
threshold matches. -/
structure ThresholdError where
deriving DecidableEq, Repr

/-- The loop body of `TrendEvaluation.evaluate`: return the
`return_value` of the first threshold containing the value; raise
`ThresholdError` after the loop otherwise. -/
def evaluateThresholds (thresholds : List TrendThreshold) (years_history : ℚ) :
    Except ThresholdError String :=
  match thresholds with
  | [] => .error ⟨⟩
  | t :: rest =>
    if t.is_in_threshold years_history then .ok t.return_value
    else evaluateThresholds rest years_history

/-- The spec's reading of "the half-open interval `[min, max)` contains
the value, a NaN minimum treated as `−∞` and a NaN maximum as `+∞`",
written directly from the specification's words. -/
def specContains (t : TrendThreshold) (value : ℚ) : Bool :=
  (match t.minimum_value with
   | .nan => true
   | .ninf => true
   | .inf => false
   | .val m => decide (m ≤ value)) &&
  (match t.maximum_value with
   | .nan => true
   | .ninf => false
   | .inf => true
   | .val m => decide (value < m))

/-- The spec's "first threshold in list order whose interval contains the
value". -/
def specFirstMatch (thresholds : List TrendThreshold) (value : ℚ) :
    Option TrendThreshold :=
  thresholds.find? (fun t => specContains t value)

/-- The two example threshold tables of the spec's concrete scenarios. -/
def exampleThresholds : List TrendThreshold :=
  [⟨"t1", .val 0, .val 3⟩, ⟨"t2", .val 3, .val 5⟩]

/-- Threshold table with a gap between 3 and 5 (concrete scenario 3). -/
def gapThresholds : List TrendThreshold :=
  [⟨"t1", .val 0, .val 3⟩, ⟨"t2", .val 5, .val 10⟩]

/-! ## `WaterTracker.standardized_indicator_to_level_code`
(`notebooks/IndicateursSecheresse/data_processing/water_tracker.py`,
lines 364-367)

```python
def standardized_indicator_to_level_code(self, standardized_indicator_value):
    for i, (k, v) in enumerate(self.levels.items()):
        if standardized_indicator_value < k:
            return i
```

The loop returns the index of the first cutoff strictly greater than the
value; if no cutoff satisfies the comparison (for instance when the
value is NaN, since every float comparison with NaN is false), the
function falls off its body and returns Python's `None`.  That implicit
`None` is modelled by `Option.none`; note that the code raises nothing. -/

/-- The loop of `standardized_indicator_to_level_code`, with the running
`enumerate` index made explicit. -/
def levelCodeLoop (i : ℕ) (keys : List PFloat) (value : PFloat) : Option ℕ :=
  match keys with
  | [] => none
  | k :: rest =>
    if PFloat.flt value k then some i else levelCodeLoop (i + 1) rest value

/-- `WaterTracker.standardized_indicator_to_level_code` over the cutoff
keys of `self.levels` (insertion order of the dict literal). -/
def standardized_indicator_to_level_code (keys : List PFloat) (value : PFloat) :
    Option ℕ :=
  levelCodeLoop 0 keys value

/-- The cutoff keys of `WaterTracker.levels` as set in `__init__`:
`{-1.78: "Très bas", ..., float("inf"): "Très haut"}`. -/
def waterTrackerLevels : List PFloat :=
  [.val (-178/100), .val (-84/100), .val (-25/100), .val (25/100),
   .val (84/100), .val (128/100), .inf]

/-! ## Claims C1 and C2: the first-match threshold classifiers -/

/-- Helper for C1: the loop of `evaluate` returns the first match. -/
theorem evaluateThresholds_eq_firstMatch (ts : List TrendThreshold) (v : ℚ) :
    evaluateThresholds ts v =
      (match specFirstMatch ts v with
       | some t => .ok t.return_value
       | none => .error ⟨⟩) := by
  induction ts with
  | nil => rfl
  | cons t rest ih =>
    have hmatch : t.is_in_threshold v = specContains t v := by
      unfold TrendThreshold.is_in_threshold TrendThreshold.verifies_minimum
        TrendThreshold.verifies_maximum specContains
      rcases t with ⟨r, mn, mx⟩
      rcases mn with _ | _ | q | _ <;> rcases mx with _ | _ | p | _ <;>
        simp [PFloat.isNan, PFloat.fle, PFloat.flt]
    show (if t.is_in_threshold v then Except.ok t.return_value
          else evaluateThresholds rest v) = _
    rw [hmatch]
    unfold specFirstMatch
    rw [List.find?_cons]
    cases h : specContains t v
    · simpa [specFirstMatch] using ih
    · simp

/-- C1: `TrendEvaluation.evaluate` returns the `return_value` of the
first threshold, in list order, whose half-open interval `[min, max)`
contains the years-history value, a NaN minimum acting as `−∞` and a
NaN maximum as `+∞` (so overlapping thresholds are tie-broken by list
order); when no threshold contains the value it raises `ThresholdError`.
In particular, on thresholds `[("t1",0,3), ("t2",3,5)]` and value `2.2`
it returns `"t1"`. -/
theorem c1_evaluate_first_match :
    (∀ (ts : List TrendThreshold) (v : ℚ),
      evaluateThresholds ts v =
        (match specFirstMatch ts v with
         | some t => .ok t.return_value
         | none => .error ⟨⟩)) ∧
    evaluateThresholds exampleThresholds (11/5) = .ok "t1" := by
  refine ⟨evaluateThresholds_eq_firstMatch, ?_⟩
  norm_num [exampleThresholds, evaluateThresholds, TrendThreshold.is_in_threshold,
    TrendThreshold.verifies_minimum, TrendThreshold.verifies_maximum,
    PFloat.isNan, PFloat.fle, PFloat.flt]

/-- C2, counterexample: the dryness-level classifier
`standardized_indicator_to_level_code` does *not* signal a
classification failure when no cutoff matches: on a NaN standardized
value (which no cutoff of `self.levels` matches, every float comparison
with NaN being false) it silently returns Python `None` — it completes
normally instead of raising an error. -/
theorem c2_counterexample_level_code_returns_none :
    standardized_indicator_to_level_code waterTrackerLevels .nan = none := by
  decide

/-- Helper for C2: the level-code loop returns `none` when no cutoff
exceeds the value. -/
theorem levelCodeLoop_none (keys : List PFloat) (value : PFloat)
    (h : ∀ k ∈ keys, PFloat.flt value k = false) :
    ∀ i, levelCodeLoop i keys value = none := by
  induction keys with
  | nil => intro i; rfl
  | cons k rest ih =>
    intro i
    unfold levelCodeLoop
    rw [h k (by simp)]
    simp only [Bool.false_eq_true, if_false]
    exact ih (fun k' hk' => h k' (by simp [hk'])) (i + 1)

/-- C2, amended: when no threshold matches, `TrendEvaluation.evaluate`
does raise `ThresholdError` (e.g. on the gap thresholds
`[("t1",0,3), ("t2",5,10)]` at value `4.2`), but the dryness-level
classifier `standardized_indicator_to_level_code` does not raise: when
no cutoff is strictly greater than the value (e.g. for a NaN value) it
silently returns Python's implicit `None`. -/
theorem c2_gap_behaviour
    (ts : List TrendThreshold) (v : ℚ)
    (keys : List PFloat) (value : PFloat)
    (hts : ∀ t ∈ ts, t.is_in_threshold v = false)
    (hkeys : ∀ k ∈ keys, PFloat.flt value k = false) :
    evaluateThresholds ts v = .error ⟨⟩ ∧
      standardized_indicator_to_level_code keys value = none := by
  constructor
  · induction ts with
    | nil => rfl
    | cons t rest ih =>
      unfold evaluateThresholds
      rw [hts t (by simp)]
      simp only [Bool.false_eq_true, if_false]
      exact ih (fun t' ht' => hts t' (by simp [ht']))
  · exact levelCodeLoop_none keys value hkeys 0

/-- Witness for C2's amended theorem: the gap thresholds at `4.2`
raise `ThresholdError`, and the dryness classifier at NaN returns
`None`. -/
theorem c2_gap_behaviour_witness :
    evaluateThresholds gapThresholds (21/5) = .error ⟨⟩ ∧
      standardized_indicator_to_level_code waterTrackerLevels .nan = none :=
  c2_gap_behaviour gapThresholds (21/5) waterTrackerLevels .nan
    (by
      norm_num [gapThresholds, TrendThreshold.is_in_threshold,
        TrendThreshold.verifies_minimum, TrendThreshold.verifies_maximum,
        PFloat.isNan, PFloat.fle, PFloat.flt])
    (by decide)

/-! ## Claims C3 and C7: `TrendProperties` -/

/-- The `has_enough_data` attribute stored by `__init__` is exactly
`_has_enough_data(measure_start, measure_end)`. -/
theorem mkTrendProperties_has_enough_data (i : TrendInputs) :
    (mkTrendProperties i).has_enough_data = hasEnoughDataCalc i := by
  unfold mkTrendProperties
  by_cases h : hasEnoughDataCalc i <;> simp [h]

/-- The concrete inputs of the spec's scenario 1. -/
def scenario1 : TrendInputs :=
  { measure_start := ⟨2015, 1, 1⟩
    measure_end := ⟨2020, 1, 1⟩
    years_not_in_trend := 1
    min_trend_length_year := 1 }

/-- C3: `TrendProperties` sets `has_enough_data` exactly when the span
`measure_end − measure_start`, expressed in years (days divided by
365.25), is at least `years_not_in_trend + min_trend_length_year`; when
it is set, `trend_data_start = measure_start` and `trend_data_end =
measure_end − years_not_in_trend` years (`DateOffset` subtraction),
otherwise both are `None` and `nb_years_history = 0`; when the window is
defined, `nb_years_history` is the rounded length in years of the trend
window.  The scenario `2015-01-01 .. 2020-01-01` with one year out of
trend and a one-year minimum gives `has_enough_data`, `trend_data_end =
2019-01-01` and `nb_years_history = 4`. -/
theorem c3_trend_properties :
    (∀ i : TrendInputs,
      ((mkTrendProperties i).has_enough_data = true ↔
        (diffDays i.measure_end i.measure_start : ℚ) / (1461/4) ≥
          (i.years_not_in_trend + i.min_trend_length_year : ℕ)) ∧
      (mkTrendProperties i).start_ =
        (if (mkTrendProperties i).has_enough_data
         then some i.measure_start else none) ∧
      (mkTrendProperties i).end_ =
        (if (mkTrendProperties i).has_enough_data
         then some (subYears i.measure_end i.years_not_in_trend) else none) ∧
      nbYearsHistory (mkTrendProperties i) =
        (if (mkTrendProperties i).has_enough_data
         then pythonRound
           ((diffDays (subYears i.measure_end i.years_not_in_trend)
              i.measure_start : ℚ) / (1461/4))
         else 0)) ∧
    (mkTrendProperties scenario1).has_enough_data = true ∧
    (mkTrendProperties scenario1).end_ = some ⟨2019, 1, 1⟩ ∧
    nbYearsHistory (mkTrendProperties scenario1) = 4 := by
  have hs : ∀ i : TrendInputs, (mkTrendProperties i).start_ =
      (if hasEnoughDataCalc i then some i.measure_start else none) := by
    intro i
    unfold mkTrendProperties
    by_cases h : hasEnoughDataCalc i <;> simp [h]
  have he : ∀ i : TrendInputs, (mkTrendProperties i).end_ =
      (if hasEnoughDataCalc i
       then some (subYears i.measure_end i.years_not_in_trend) else none) := by
    intro i
    unfold mkTrendProperties
    by_cases h : hasEnoughDataCalc i <;> simp [h]
  have hiff : ∀ i : TrendInputs, hasEnoughDataCalc i = true ↔
      (diffDays i.measure_end i.measure_start : ℚ) / (1461/4) ≥
        (i.years_not_in_trend + i.min_trend_length_year : ℕ) := by
    intro i
    unfold hasEnoughDataCalc
    exact decide_eq_true_iff
  have hscenario : hasEnoughDataCalc scenario1 = true := by
    norm_num [hasEnoughDataCalc, scenario1, diffDays, toOrdinal, dayOfYear,
      daysBeforeMonth, isLeap]
  have hgen : ∀ i : TrendInputs,
      ((mkTrendProperties i).has_enough_data = true ↔
        (diffDays i.measure_end i.measure_start : ℚ) / (1461/4) ≥
          (i.years_not_in_trend + i.min_trend_length_year : ℕ)) ∧
      (mkTrendProperties i).start_ =
        (if (mkTrendProperties i).has_enough_data
         then some i.measure_start else none) ∧
      (mkTrendProperties i).end_ =
        (if (mkTrendProperties i).has_enough_data
         then some (subYears i.measure_end i.years_not_in_trend) else none) ∧
      nbYearsHistory (mkTrendProperties i) =
        (if (mkTrendProperties i).has_enough_data
         then pythonRound
           ((diffDays (subYears i.measure_end i.years_not_in_trend)
              i.measure_start : ℚ) / (1461/4))
         else 0) := by
    intro i
    rw [mkTrendProperties_has_enough_data]
    refine ⟨hiff i, hs i, he i, ?_⟩
    by_cases h : hasEnoughDataCalc i <;>
      simp [nbYearsHistory, hs i, he i, h]
  refine ⟨hgen, ?_, ?_, ?_⟩
  · rw [mkTrendProperties_has_enough_data]
    exact hscenario
  · rw [he scenario1, hscenario]
    norm_num [scenario1, subYears, isLeap]
  · rw [(hgen scenario1).2.2.2, mkTrendProperties_has_enough_data, hscenario]
    norm_num [scenario1, subYears, isLeap, diffDays, toOrdinal, dayOfYear,
      daysBeforeMonth, pythonRound]

/-- C7: `has_enough_data` is monotone in the measurement span: with the
two year-count parameters fixed, if the first span (in days) is no
longer than the second and the first pair already has enough data, so
does the second — lengthening the span can only flip the flag from
false to true. -/
theorem c7_has_enough_data_monotone
    (ms₁ me₁ ms₂ me₂ : PyDate) (ynit mtl : ℕ)
    (hspan : diffDays me₁ ms₁ ≤ diffDays me₂ ms₂)
    (h : (mkTrendProperties ⟨ms₁, me₁, ynit, mtl⟩).has_enough_data = true) :
    (mkTrendProperties ⟨ms₂, me₂, ynit, mtl⟩).has_enough_data = true := by
  rw [mkTrendProperties_has_enough_data] at h ⊢
  unfold hasEnoughDataCalc at h ⊢
  simp only [decide_eq_true_eq] at h ⊢
  refine le_trans h ?_
  have hq : (diffDays me₁ ms₁ : ℚ) ≤ (diffDays me₂ ms₂ : ℚ) := by
    exact_mod_cast hspan
  apply div_le_div_of_nonneg_right hq
  norm_num

/-- Witness for C7: the 2010–2020 span dominates the 2015–2020 span,
which already has enough data for one year out of trend and a one-year
minimum, so the longer span does too. -/
theorem c7_has_enough_data_monotone_witness :
    (mkTrendProperties
      ⟨⟨2010, 1, 1⟩, ⟨2020, 1, 1⟩, 1, 1⟩).has_enough_data = true :=
  c7_has_enough_data_monotone ⟨2015, 1, 1⟩ ⟨2020, 1, 1⟩ ⟨2010, 1, 1⟩
    ⟨2020, 1, 1⟩ 1 1
    (by norm_num [diffDays, toOrdinal, dayOfYear, daysBeforeMonth, isLeap])
    (by
      rw [mkTrendProperties_has_enough_data]
      norm_num [hasEnoughDataCalc, diffDays, toOrdinal, dayOfYear,
        daysBeforeMonth, isLeap])

/-! ## `humidity_class`
(`notebooks/ImpactSecheresse_Agri_Et_Bat/traitement_cds.py`, lines 56-72)

A chain of Python float comparisons `lo <= val < hi`; on floats every
comparison with NaN is false, so a NaN input falls through every branch
into the final `else`. -/

/-- `humidity_class`: the seven-way soil-humidity classification, with
the literal string `"Nan"` as the fall-through result. -/
def humidity_class (val : PFloat) : String :=
  if PFloat.fle (.val 0) val && PFloat.flt val (.val 15) then "Extremement sec"
  else if PFloat.fle (.val 15) val && PFloat.flt val (.val 30) then "Très sec"
  else if PFloat.fle (.val 30) val && PFloat.flt val (.val 50) then "Modèrement sec"
  else if PFloat.fle (.val 50) val && PFloat.flt val (.val 65) then "Humidité normale"
  else if PFloat.fle (.val 65) val && PFloat.flt val (.val 75) then "Modèrement humide"
  else if PFloat.fle (.val 75) val && PFloat.flt val (.val 90) then "Très humide"
  else if PFloat.fle (.val 90) val && PFloat.flt val (.val 100) then "Extremement humide"
  else "Nan"

/-- A named half-open humidity bin `[lo, hi)`, the spec's view of one
branch of `humidity_class`. -/
structure HumidityBin where
  name : String
  lo : ℚ
  hi : ℚ
deriving DecidableEq, Repr

/-- The seven humidity bins, in source order. -/
def humidityBins : List HumidityBin :=
  [⟨"Extremement sec", 0, 15⟩, ⟨"Très sec", 15, 30⟩, ⟨"Modèrement sec", 30, 50⟩,
   ⟨"Humidité normale", 50, 65⟩, ⟨"Modèrement humide", 65, 75⟩,
   ⟨"Très humide", 75, 90⟩, ⟨"Extremement humide", 90, 100⟩]

/-- C10: `humidity_class` is total; its seven named classes partition
`[0, 100)` into half-open bins, so every rational value in `[0, 100)`
lies in exactly one bin and is mapped to that bin's name; every other
input — negative, `≥ 100`, NaN, or an infinity — yields the literal
string `"Nan"` rather than an error. -/
theorem c10_humidity_class_total
    (v : ℚ) (w : ℚ) (h0 : 0 ≤ v) (h100 : v < 100) (hw : w < 0 ∨ 100 ≤ w) :
    (∃ b, b ∈ humidityBins ∧ (b.lo ≤ v ∧ v < b.hi) ∧
      humidity_class (.val v) = b.name ∧
      (∀ b', b' ∈ humidityBins → b'.lo ≤ v → v < b'.hi → b' = b)) ∧
    humidity_class (.val w) = "Nan" ∧
    humidity_class .nan = "Nan" ∧
    humidity_class .inf = "Nan" ∧
    humidity_class .ninf = "Nan" := by
  refine ⟨?_, ?_, rfl, rfl, rfl⟩
  · have huniq : ∀ b : HumidityBin, b ∈ humidityBins →
        ∀ b', b' ∈ humidityBins → b'.lo ≤ v → v < b'.hi →
        b.lo ≤ v → v < b.hi → b' = b := by
      intro b hb b' hb' hlo' hhi' hlo hhi
      simp only [humidityBins, List.mem_cons, List.not_mem_nil, or_false] at hb hb'
      rcases hb with rfl | rfl | rfl | rfl | rfl | rfl | rfl <;>
        rcases hb' with rfl | rfl | rfl | rfl | rfl | rfl | rfl <;>
        first
          | rfl
          | (exfalso; simp only [] at hlo' hhi' hlo hhi; linarith)
    rcases lt_or_le v 15 with h | h15
    · refine ⟨⟨"Extremement sec", 0, 15⟩, by norm_num [humidityBins],
        ⟨h0, h⟩, ?_, fun b' hb' hlo hhi =>
          huniq _ (by norm_num [humidityBins]) b' hb' hlo hhi h0 h⟩
      simp [humidity_class, PFloat.fle, PFloat.flt, h0, h]
    rcases lt_or_le v 30 with h | h30
    · have hn : ¬ v < 15 := not_lt.mpr h15
      refine ⟨⟨"Très sec", 15, 30⟩, by norm_num [humidityBins],
        ⟨h15, h⟩, ?_, fun b' hb' hlo hhi =>
          huniq _ (by norm_num [humidityBins]) b' hb' hlo hhi h15 h⟩
      simp [humidity_class, PFloat.fle, PFloat.flt, h15, h, hn]
    rcases lt_or_le v 50 with h | h50
    · have hn : ¬ v < 15 := by linarith
      have hn' : ¬ v < 30 := not_lt.mpr h30
      refine ⟨⟨"Modèrement sec", 30, 50⟩, by norm_num [humidityBins],
        ⟨h30, h⟩, ?_, fun b' hb' hlo hhi =>
          huniq _ (by norm_num [humidityBins]) b' hb' hlo hhi h30 h⟩
      simp [humidity_class, PFloat.fle, PFloat.flt, h30, h, hn, hn']
    rcases lt_or_le v 65 with h | h65
    · have hn : ¬ v < 15 := by linarith
      have hn' : ¬ v < 30 := by linarith
      have hn'' : ¬ v < 50 := not_lt.mpr h50
      refine ⟨⟨"Humidité normale", 50, 65⟩, by norm_num [humidityBins],
        ⟨h50, h⟩, ?_, fun b' hb' hlo hhi =>
          huniq _ (by norm_num [humidityBins]) b' hb' hlo hhi h50 h⟩
      simp [humidity_class, PFloat.fle, PFloat.flt, h50, h, hn, hn', hn'']
    rcases lt_or_le v 75 with h | h75
    · have hn : ¬ v < 15 := by linarith
      have hn' : ¬ v < 30 := by linarith
      have hn'' : ¬ v < 50 := by linarith
      have hn3 : ¬ v < 65 := not_lt.mpr h65
      refine ⟨⟨"Modèrement humide", 65, 75⟩, by norm_num [humidityBins],
        ⟨h65, h⟩, ?_, fun b' hb' hlo hhi =>
          huniq _ (by norm_num [humidityBins]) b' hb' hlo hhi h65 h⟩
      simp [humidity_class, PFloat.fle, PFloat.flt, h65, h, hn, hn', hn'', hn3]
    rcases lt_or_le v 90 with h | h90
    · have hn : ¬ v < 15 := by linarith
      have hn' : ¬ v < 30 := by linarith
      have hn'' : ¬ v < 50 := by linarith
      have hn3 : ¬ v < 65 := by linarith
      have hn4 : ¬ v < 75 := not_lt.mpr h75
      refine ⟨⟨"Très humide", 75, 90⟩, by norm_num [humidityBins],
        ⟨h75, h⟩, ?_, fun b' hb' hlo hhi =>
          huniq _ (by norm_num [humidityBins]) b' hb' hlo hhi h75 h⟩
      simp [humidity_class, PFloat.fle, PFloat.flt, h75, h, hn, hn', hn'', hn3, hn4]
    · have hn : ¬ v < 15 := by linarith
      have hn' : ¬ v < 30 := by linarith
      have hn'' : ¬ v < 50 := by linarith
      have hn3 : ¬ v < 65 := by linarith
      have hn4 : ¬ v < 75 := by linarith
      have hn5 : ¬ v < 90 := not_lt.mpr h90
      refine ⟨⟨"Extremement humide", 90, 100⟩, by norm_num [humidityBins],
        ⟨h90, h100⟩, ?_, fun b' hb' hlo hhi =>
          huniq _ (by norm_num [humidityBins]) b' hb' hlo hhi h90 h100⟩
      simp [humidity_class, PFloat.fle, PFloat.flt, h90, h100, hn, hn', hn'',
        hn3, hn4]
  · rcases hw with hw | hw
    · have hn : ¬ (0 ≤ w) := not_le.mpr hw
      have h1 : ¬ (15 ≤ w) := by linarith
      have h2 : ¬ (30 ≤ w) := by linarith
      have h3 : ¬ (50 ≤ w) := by linarith
      have h4 : ¬ (65 ≤ w) := by linarith
      have h5 : ¬ (75 ≤ w) := by linarith
      have h6 : ¬ (90 ≤ w) := by linarith
      simp [humidity_class, PFloat.fle, PFloat.flt, hn, h1, h2, h3, h4, h5, h6]
    · have hn : ¬ w < 100 := not_lt.mpr hw
      have h1 : ¬ w < 15 := by linarith
      have h2 : ¬ w < 30 := by linarith
      have h3 : ¬ w < 50 := by linarith
      have h4 : ¬ w < 65 := by linarith
      have h5 : ¬ w < 75 := by linarith
      have h6 : ¬ w < 90 := by linarith
      simp [humidity_class, PFloat.fle, PFloat.flt, hn, h1, h2, h3, h4, h5, h6]

/-- Witness for C10: `42.5` lands in exactly one bin
(`"Humidité normale"`), and `-3` yields `"Nan"`. -/
theorem c10_humidity_class_total_witness :
    (∃ b, b ∈ humidityBins ∧ (b.lo ≤ (85/2 : ℚ) ∧ (85/2 : ℚ) < b.hi) ∧
      humidity_class (.val (85/2)) = b.name ∧
      (∀ b', b' ∈ humidityBins → b'.lo ≤ (85/2 : ℚ) → (85/2 : ℚ) < b'.hi →
        b' = b)) ∧
    humidity_class (.val (-3)) = "Nan" ∧
    humidity_class .nan = "Nan" ∧
    humidity_class .inf = "Nan" ∧
    humidity_class .ninf = "Nan" :=
  c10_humidity_class_total (85/2) (-3) (by norm_num) (by norm_num)
    (Or.inl (by norm_num))

/-! ## `AverageTrend.add_days_of_year_column` at column level
(`trends.py`, lines 259-301)

Claim C9 is about column *names*, so here the DataFrame is modelled as
an ordered association list of named columns.  The method first gets
the dates column — with `remove=True` it `pop`s it, i.e. removes it
from the frame — then computes the day-of-year series, then checks
whether a column named `day_of_year` exists, raising
`ExistingColumnNameError` if so, and otherwise writes the new column. -/

/-- A DataFrame cell: a date, a number, or NaN. -/
inductive Cell where
  | date (d : PyDate) : Cell
  | num (q : ℚ) : Cell
  | nan : Cell
deriving DecidableEq, Repr

/-- A DataFrame seen at column level: ordered named columns. -/
abbrev Frame := List (String × List Cell)

/-- Column names, in order (`df.columns`). -/
def Frame.keys (df : Frame) : List String := df.map Prod.fst

/-- Read a column (`df[c]`); the claims only use it on present columns. -/
def Frame.getCol (df : Frame) (c : String) : List Cell :=
  ((df.find? (fun p => p.1 = c)).map Prod.snd).getD []

/-- Remove a column (the effect of `df.pop(c)` on `df`). -/
def Frame.dropCol (df : Frame) (c : String) : Frame :=
  df.filter (fun p => p.1 ≠ c)

/-- `ExistingColumnNameError`, carrying the offending column name. -/
structure ExistingColumnNameErr where
  column_name : String
deriving DecidableEq, Repr

/-- `pd.to_datetime(...).dt.day_of_year` applied to a column of cells:
dates map to their day-of-year number, anything else to NaN. -/
def daysOfYearCells (dates : List Cell) : List Cell :=
  dates.map fun c =>
    match c with
    | .date d => .num (dayOfYear d)
    | _ => .nan

/-- `AverageTrend.add_days_of_year_column` at column level: pop or read
the dates column, compute the day-of-year series, raise
`ExistingColumnNameError` when a `day_of_year` column (still) exists,
else append the new column. -/
def add_days_of_year_column (dates_df : Frame) (dates_column : String)
    (remove : Bool) : Except ExistingColumnNameErr Frame :=
  let dates := dates_df.getCol dates_column
  let dates_df' := if remove then dates_df.dropCol dates_column else dates_df
  let days_of_year := daysOfYearCells dates
  if "day_of_year" ∈ dates_df'.keys then .error ⟨"day_of_year"⟩
  else .ok (dates_df' ++ [("day_of_year", days_of_year)])

/-- A caller frame whose only column is already named `day_of_year`. -/
def collisionFrame : Frame := [("day_of_year", [Cell.date ⟨2023, 5, 1⟩])]

/-- C9, counterexample: with `remove=True` and the dates column itself
named `day_of_year`, the caller-supplied frame contains a `day_of_year`
column, yet `add_days_of_year_column` does not raise: the `pop` removes
that column before the existence check, so the call succeeds and the
caller's `day_of_year` data is silently replaced by the computed
day-of-year numbers. -/
theorem c9_counterexample_collision_not_raised :
    "day_of_year" ∈ collisionFrame.keys ∧
    add_days_of_year_column collisionFrame "day_of_year" true =
      .ok [("day_of_year", [Cell.num 121])] := by
  constructor
  · simp [collisionFrame, Frame.keys]
  · norm_num [add_days_of_year_column, collisionFrame, Frame.getCol,
      Frame.dropCol, Frame.keys, daysOfYearCells, dayOfYear, daysBeforeMonth,
      isLeap, List.find?]

/-- C9, amended: `add_days_of_year_column` raises
`ExistingColumnNameError` exactly when a `day_of_year` column is present
*after* the optional `pop` of the dates column — so with `remove=False`
(the variant `AverageTrend.transform` applies to the caller's present
frame) it raises precisely when the caller-supplied frame already
contains `day_of_year`, and the error is produced instead of a result
frame, so no column is written; but with `remove=True` and
`dates_column = "day_of_year"` the collision goes undetected and the
column is overwritten. -/
theorem c9_collision_error_characterised (df : Frame) (dc : String) (rm : Bool) :
    add_days_of_year_column df dc rm =
      (if "day_of_year" ∈ (if rm then df.dropCol dc else df).keys
       then .error ⟨"day_of_year"⟩
       else .ok ((if rm then df.dropCol dc else df) ++
         [("day_of_year", daysOfYearCells (df.getCol dc))])) ∧
    (add_days_of_year_column df dc false = .error ⟨"day_of_year"⟩ ↔
      "day_of_year" ∈ df.keys) := by
  constructor
  · unfold add_days_of_year_column
    by_cases h : "day_of_year" ∈ (if rm then df.dropCol dc else df).keys <;>
      simp [h]
  · unfold add_days_of_year_column
    by_cases h : "day_of_year" ∈ df.keys <;> simp [h]

/-! ## List toolkit: keep-first de-duplication and insertion sort

`pandas` `drop_duplicates` keeps the first occurrence; `groupby` sorts
its keys.  Both are modelled here, with the lemmas the claims need. -/

/-- `drop_duplicates(subset=key)` keeping the first occurrence. -/
def ddupBy {α κ : Type} [DecidableEq κ] (key : α → κ) : List α → List α
  | [] => []
  | x :: xs => x :: ddupBy key (xs.filter fun y => key y ≠ key x)
termination_by l => l.length
decreasing_by simpa using Nat.lt_succ_of_le (List.length_filter_le _ _)

/-- `drop_duplicates()` over whole rows, keeping the first occurrence. -/
def ddup {α : Type} [DecidableEq α] (l : List α) : List α := ddupBy id l

/-- The keys surviving `ddupBy` are exactly the original keys. -/
theorem mem_map_key_ddupBy {α κ : Type} [DecidableEq κ] (key : α → κ)
    (l : List α) (k : κ) : k ∈ (ddupBy key l).map key ↔ k ∈ l.map key := by
  induction l using ddupBy.induct key with
  | case1 => simp [ddupBy]
  | case2 x xs ih =>
    rw [ddupBy]
    simp only [List.map_cons, List.mem_cons, ih, List.mem_map, List.mem_filter]
    constructor
    · rintro (rfl | ⟨y, ⟨hy, _⟩, rfl⟩)
      · exact Or.inl rfl
      · exact Or.inr ⟨y, hy, rfl⟩
    · rintro (rfl | ⟨y, hy, rfl⟩)
      · exact Or.inl rfl
      · by_cases h : key y = key x
        · exact Or.inl h
        · exact Or.inr ⟨y, ⟨hy, by simpa using h⟩, rfl⟩

/-- `ddupBy` returns a subsequence of its input. -/
theorem ddupBy_sublist {α κ : Type} [DecidableEq κ] (key : α → κ)
    (l : List α) : (ddupBy key l).Sublist l := by
  induction l using ddupBy.induct key with
  | case1 => simp [ddupBy]
  | case2 x xs ih =>
    rw [ddupBy]
    exact (ih.trans (List.filter_sublist xs)).cons₂ x

/-- After `ddupBy`, the keys are pairwise distinct. -/
theorem nodup_map_key_ddupBy {α κ : Type} [DecidableEq κ] (key : α → κ)
    (l : List α) : ((ddupBy key l).map key).Nodup := by
  induction l using ddupBy.induct key with
  | case1 => simp [ddupBy]
  | case2 x xs ih =>
    rw [ddupBy]
    rw [List.map_cons, List.nodup_cons]
    refine ⟨?_, ih⟩
    intro hmem
    rw [mem_map_key_ddupBy] at hmem
    simp only [List.mem_map, List.mem_filter] at hmem
    obtain ⟨y, ⟨_, hne⟩, hk⟩ := hmem
    have hne' : key y ≠ key x := by simpa using hne
    exact hne' hk

/-- Whole-row `ddup` keeps exactly the elements of the input. -/
theorem mem_ddup {α : Type} [DecidableEq α] (l : List α) (a : α) :
    a ∈ ddup l ↔ a ∈ l := by
  have h := mem_map_key_ddupBy (@id α) l a
  simpa [ddup] using h

/-- `ddupBy` is the identity when the keys are already distinct. -/
theorem ddupBy_eq_self {α κ : Type} [DecidableEq κ] (key : α → κ)
    (l : List α) (h : (l.map key).Nodup) : ddupBy key l = l := by
  induction l using ddupBy.induct key with
  | case1 => simp [ddupBy]
  | case2 x xs ih =>
    rw [List.map_cons, List.nodup_cons] at h
    obtain ⟨hx, hxs⟩ := h
    have hfix : xs.filter (fun y => key y ≠ key x) = xs := by
      rw [List.filter_eq_self]
      intro a ha
      have hne : key a ≠ key x := fun hk => hx (List.mem_map.mpr ⟨a, ha, hk⟩)
      simpa using hne
    rw [hfix] at ih
    rw [ddupBy, hfix, ih hxs]

/-- Sorted insertion (ascending). -/
def insertLe {α : Type} [LinearOrder α] (x : α) : List α → List α
  | [] => [x]
  | y :: ys => if x ≤ y then x :: y :: ys else y :: insertLe x ys

/-- Insertion sort, modelling the key-sorting of `pandas` `groupby`. -/
def sortLe {α : Type} [LinearOrder α] (l : List α) : List α :=
  l.foldr insertLe []

/-- Sorted insertion permutes the pushed element to the front. -/
theorem perm_insertLe {α : Type} [LinearOrder α] (x : α) (l : List α) :
    (insertLe x l).Perm (x :: l) := by
  induction l with
  | nil => rfl
  | cons y ys ih =>
    unfold insertLe
    by_cases h : x ≤ y
    · simp [h]
    · simp only [h, if_false]
      exact (ih.cons y).trans (List.Perm.swap x y ys)

/-- Insertion sort is a permutation. -/
theorem perm_sortLe {α : Type} [LinearOrder α] (l : List α) :
    (sortLe l).Perm l := by
  induction l with
  | nil => rfl
  | cons y ys ih =>
    unfold sortLe
    rw [List.foldr_cons]
    exact (perm_insertLe y _).trans (ih.cons y)

/-! ## `AverageTrend.compute_reference_values` and `transform` at row level
(`trends.py`, lines 303-388)

Claim C4 is about cell values and row order, so here the two frames are
modelled at row level.  `transform` copies `historical_df[[dates, values]]`
and `present_df`, adds the day-of-year column to both (so neither caller
frame is mutated and, the modelled schema being exactly the date and
value columns, the `day_of_year` collision branch of claim C9 cannot
fire), averages the history per day of year, and left-merges the
averages onto the present rows on the day-of-year key. -/

/-- A row of a series frame: one date, one value. -/
structure SRow where
  date : PyDate
  value : ℚ
deriving DecidableEq, Repr

/-- A row of the frame returned by `AverageTrend.transform`: the present
row, its `day_of_year`, and the merged `mean_value` (`none` models the
NaN of an unmatched left join). -/
structure JoinedRow where
  date : PyDate
  value : ℚ
  day_of_year : ℕ
  mean_value : Option ℚ
deriving DecidableEq, Repr

/-- `pandas` mean of a list of values (used on non-empty groups only). -/
def meanOf (l : List ℚ) : ℚ := l.sum / l.length

/-- `add_days_of_year_column(present_copy, dates, remove=False)` at row
level: each row gains its day-of-year number. -/
def addDaysOfYearRows (rows : List SRow) : List (SRow × ℕ) :=
  rows.map fun r => (r, dayOfYear r.date)

/-- `add_days_of_year_column(history_copy, dates, remove=True)` at row
level: the date column is replaced by the day-of-year number. -/
def historyDaysOfYear (rows : List SRow) : List (ℕ × ℚ) :=
  rows.map fun r => (dayOfYear r.date, r.value)

/-- `AverageTrend.compute_reference_values`: group the history rows by
day of year (`groupby` sorts its distinct keys) and average each group. -/
def computeReferenceValues (hist : List (ℕ × ℚ)) : List (ℕ × ℚ) :=
  (sortLe (ddup (hist.map Prod.fst))).map fun d =>
    (d, meanOf ((hist.filter fun p => p.1 = d).map Prod.snd))

/-- The left merge of `transform` (`pd.merge(how="left")` on the
day-of-year key): every left row is kept in order; a left row with no
right match gets a NaN mean, and one with matches is repeated once per
match (the reference having unique keys, in fact exactly once). -/
def mergeLeft (left : List (SRow × ℕ)) (right : List (ℕ × ℚ)) :
    List JoinedRow :=
  left.flatMap fun rd =>
    if (right.filter fun p => p.1 = rd.2).isEmpty
    then [⟨rd.1.date, rd.1.value, rd.2, none⟩]
    else (right.filter fun p => p.1 = rd.2).map fun p =>
      ⟨rd.1.date, rd.1.value, rd.2, some p.2⟩

/-- `AverageTrend.transform` at row level. -/
def averageTrendTransform (historical present : List SRow) : List JoinedRow :=
  mergeLeft (addDaysOfYearRows present)
    (computeReferenceValues (historyDaysOfYear historical))

/-- The spec's view of the reference value for a day of year: the mean
of all historical values sharing it, NaN (`none`) when that day of year
never occurs in the history. -/
def histMeanAt (historical : List SRow) (d : ℕ) : Option ℚ :=
  let vs := (historical.filter fun r => dayOfYear r.date = d).map SRow.value
  if vs.isEmpty then none else some (meanOf vs)

/-- Filtering a unique-key table built over a key list `ks` by one key
gives the singleton row at that key, or nothing. -/
theorem filter_keyTable {κ β : Type} [DecidableEq κ] (ks : List κ) (g : κ → β)
    (d : κ) (h : ks.Nodup) :
    ((ks.map fun k => (k, g k)).filter fun p => p.1 = d) =
      if d ∈ ks then [(d, g d)] else [] := by
  induction ks with
  | nil => simp
  | cons k t ih =>
    rw [List.nodup_cons] at h
    obtain ⟨hk, ht⟩ := h
    rw [List.map_cons, List.filter_cons]
    by_cases hd : k = d
    · subst hd
      simp [ih ht, hk]
    · have hdk : d ≠ k := fun h => hd h.symm
      simp [hd, hdk, ih ht]

/-- The history pairs whose day of year is `d` carry exactly the values
of the history rows whose date falls on day of year `d`. -/
theorem historyDaysOfYear_filter (historical : List SRow) (d : ℕ) :
    (((historyDaysOfYear historical).filter fun p => p.1 = d).map Prod.snd) =
      ((historical.filter fun r => dayOfYear r.date = d).map SRow.value) := by
  induction historical with
  | nil => rfl
  | cons r t ih =>
    unfold historyDaysOfYear at *
    rw [List.map_cons, List.filter_cons, List.filter_cons]
    by_cases hd : dayOfYear r.date = d
    · have hd' : (decide (dayOfYear r.date = d)) = true := by simpa using hd
      simp only [hd', if_true, List.map_cons]
      rw [ih]
    · have hd' : (decide (dayOfYear r.date = d)) = false := by simpa using hd
      simp only [hd', Bool.false_eq_true, if_false]
      exact ih

/-- A day of year occurs among the history-pair keys exactly when some
history row's date falls on it. -/
theorem mem_historyKeys (historical : List SRow) (d : ℕ) :
    d ∈ (historyDaysOfYear historical).map Prod.fst ↔
      ∃ r ∈ historical, dayOfYear r.date = d := by
  unfold historyDaysOfYear
  simp [List.mem_map]

/-- C4: for any history (possibly empty) and any non-empty present
series, `AverageTrend.transform` returns exactly the present rows, in
their original order and multiplicity, each extended with its
day-of-year number and with the mean of all historical values sharing
that day of year (NaN when the day of year is absent from the history —
in particular always NaN when the history is empty). -/
theorem c4_transform_preserves_present
    (historical present : List SRow) (_hp : present ≠ []) :
    averageTrendTransform historical present =
      present.map fun r =>
        ⟨r.date, r.value, dayOfYear r.date,
          histMeanAt historical (dayOfYear r.date)⟩ := by
  clear _hp
  have hnd : (sortLe (ddup ((historyDaysOfYear historical).map Prod.fst))).Nodup := by
    refine (perm_sortLe _).nodup_iff.mpr ?_
    have h := nodup_map_key_ddupBy (@id ℕ)
      ((historyDaysOfYear historical).map Prod.fst)
    simpa [ddup] using h
  have hmemk : ∀ d, d ∈ sortLe (ddup ((historyDaysOfYear historical).map Prod.fst)) ↔
      d ∈ (historyDaysOfYear historical).map Prod.fst := by
    intro d
    exact (perm_sortLe _).mem_iff.trans (mem_ddup _ _)
  have hrow : ∀ r : SRow,
      (if ((computeReferenceValues (historyDaysOfYear historical)).filter
            fun p => p.1 = dayOfYear r.date).isEmpty
       then [JoinedRow.mk r.date r.value (dayOfYear r.date) none]
       else ((computeReferenceValues (historyDaysOfYear historical)).filter
            fun p => p.1 = dayOfYear r.date).map fun p =>
          ⟨r.date, r.value, dayOfYear r.date, some p.2⟩) =
      [⟨r.date, r.value, dayOfYear r.date,
        histMeanAt historical (dayOfYear r.date)⟩] := by
    intro r
    unfold computeReferenceValues
    rw [filter_keyTable _ _ _ hnd]
    by_cases hin : dayOfYear r.date ∈
        sortLe (ddup ((historyDaysOfYear historical).map Prod.fst))
    · rw [if_pos hin]
      have hfilter_ne : (historical.filter
          fun r' => dayOfYear r'.date = dayOfYear r.date) ≠ [] := by
        obtain ⟨r', hr', hd⟩ := (mem_historyKeys historical _).mp
          ((hmemk _).mp hin)
        intro hnil
        have : r' ∈ historical.filter
            fun r' => dayOfYear r'.date = dayOfYear r.date :=
          List.mem_filter.mpr ⟨hr', by simpa using hd⟩
        rw [hnil] at this
        exact absurd this (List.not_mem_nil r')
      have hmean : histMeanAt historical (dayOfYear r.date) =
          some (meanOf (((historyDaysOfYear historical).filter
            fun p => p.1 = dayOfYear r.date).map Prod.snd)) := by
        unfold histMeanAt
        rw [historyDaysOfYear_filter]
        have hne : ((historical.filter
            fun r' => dayOfYear r'.date = dayOfYear r.date).map SRow.value)
            ≠ [] := by
          intro hnil
          exact hfilter_ne (List.map_eq_nil_iff.mp hnil)
        rw [if_neg (by simpa [List.isEmpty_iff] using hne)]
      rw [hmean]
      simp
    · rw [if_neg hin]
      have hnone : histMeanAt historical (dayOfYear r.date) = none := by
        unfold histMeanAt
        have hempty : (historical.filter
            fun r' => dayOfYear r'.date = dayOfYear r.date) = [] := by
          rw [List.filter_eq_nil_iff]
          intro r' hr' hd
          exact hin ((hmemk _).mpr ((mem_historyKeys historical _).mpr
            ⟨r', hr', by simpa using hd⟩))
        rw [hempty]
        simp
      rw [hnone]
      simp
  unfold averageTrendTransform mergeLeft addDaysOfYearRows
  rw [List.flatMap_map]
  induction present with
  | nil => rfl
  | cons r t ih =>
    rw [List.flatMap_cons, List.map_cons, ih]
    have h := hrow r
    simp only [] at h ⊢
    rw [h]
    rfl

/-- Example history for the C4 witness: values 1 and 2 on day-of-year 1,
value 3 on day 2, values 5 and 7 on day 4 (across two years). -/
def c4HistEx : List SRow :=
  [⟨⟨2001, 1, 1⟩, 1⟩, ⟨⟨2002, 1, 1⟩, 2⟩, ⟨⟨2001, 1, 2⟩, 3⟩,
   ⟨⟨2001, 1, 4⟩, 5⟩, ⟨⟨2002, 1, 4⟩, 7⟩]

/-- Example present series for the C4 witness: days of year 1, 3, 4. -/
def c4PresEx : List SRow :=
  [⟨⟨2023, 1, 1⟩, 10⟩, ⟨⟨2023, 1, 3⟩, 20⟩, ⟨⟨2023, 1, 4⟩, 30⟩]

/-- Witness for C4: three present rows survive in order; day 1 gets the
historical mean 1.5, day 3 (absent from history) gets NaN, day 4 gets
mean 6. -/
theorem c4_transform_preserves_present_witness :
    averageTrendTransform c4HistEx c4PresEx =
      [⟨⟨2023, 1, 1⟩, 10, 1, some (3/2)⟩, ⟨⟨2023, 1, 3⟩, 20, 3, none⟩,
       ⟨⟨2023, 1, 4⟩, 30, 4, some 6⟩] := by
  rw [c4_transform_preserves_present c4HistEx c4PresEx (by simp [c4PresEx])]
  norm_num [c4PresEx, c4HistEx, histMeanAt, meanOf, dayOfYear, daysBeforeMonth,
    isLeap, List.filter_cons]
  exact ⟨fun h => absurd h (by simp), fun h => absurd h (by simp)⟩

/-! ## Quantiles (`Series.quantile`, linear interpolation) -/

/-- Sorted insertion preserves sortedness. -/
theorem sorted_insertLe {α : Type} [LinearOrder α] (x : α) (l : List α)
    (h : l.Sorted (· ≤ ·)) : (insertLe x l).Sorted (· ≤ ·) := by
  induction l with
  | nil => simp [insertLe]
  | cons y ys ih =>
    rw [List.sorted_cons] at h
    obtain ⟨hy, hys⟩ := h
    unfold insertLe
    by_cases hxy : x ≤ y
    · rw [if_pos hxy, List.sorted_cons]
      refine ⟨?_, List.sorted_cons.mpr ⟨hy, hys⟩⟩
      intro b hb
      rcases List.mem_cons.mp hb with rfl | hb'
      · exact hxy
      · exact hxy.trans (hy b hb')
    · rw [if_neg hxy, List.sorted_cons]
      refine ⟨?_, ih hys⟩
      intro b hb
      rcases List.mem_cons.mp ((perm_insertLe x ys).mem_iff.mp hb) with rfl | hb'
      · exact le_of_not_le hxy
      · exact hy b hb'

/-- Insertion sort sorts. -/
theorem sorted_sortLe {α : Type} [LinearOrder α] (l : List α) :
    (sortLe l).Sorted (· ≤ ·) := by
  induction l with
  | nil => simp [sortLe]
  | cons y ys ih =>
    unfold sortLe at *
    rw [List.foldr_cons]
    exact sorted_insertLe y _ ih

/-- Indexing a sorted list is monotone. -/
theorem sorted_getD_mono (s : List ℚ) (hs : s.Sorted (· ≤ ·)) {i j : ℕ}
    (hij : i ≤ j) (hj : j < s.length) : s.getD i 0 ≤ s.getD j 0 := by
  have hi : i < s.length := lt_of_le_of_lt hij hj
  rw [List.getD_eq_getElem _ _ hi, List.getD_eq_getElem _ _ hj]
  rcases lt_or_eq_of_le hij with hlt | heq
  · have h := hs.rel_get_of_lt (a := ⟨i, hi⟩) (b := ⟨j, hj⟩) (by simpa using hlt)
    simpa using h
  · subst heq
    exact le_refl _

/-- The linear-interpolation quantile of an already sorted list, as
`numpy`: position `h = p·(n−1)`, result
`s[⌊h⌋] + (h − ⌊h⌋)·(s[⌈h⌉] − s[⌊h⌋])`. -/
def quantileSorted (s : List ℚ) (p : ℚ) : ℚ :=
  s.getD (⌊p * ((s.length : ℚ) - 1)⌋).toNat 0 +
    (p * ((s.length : ℚ) - 1) - ⌊p * ((s.length : ℚ) - 1)⌋) *
      (s.getD (⌈p * ((s.length : ℚ) - 1)⌉).toNat 0 -
        s.getD (⌊p * ((s.length : ℚ) - 1)⌋).toNat 0)

/-- `Series.quantile(p)` with the default linear interpolation; `none`
models the NaN returned on an empty series. -/
def quantile (l : List ℚ) (p : ℚ) : Option ℚ :=
  match l with
  | [] => none
  | _ :: _ => some (quantileSorted (sortLe l) p)

/-- The interpolated quantile lies between its two neighbouring order
statistics. -/
theorem quantileSorted_bounds (s : List ℚ) (hs : s.Sorted (· ≤ ·))
    (hn : s ≠ []) (p : ℚ) (h0 : 0 ≤ p) (h1 : p ≤ 1) :
    s.getD (⌊p * ((s.length : ℚ) - 1)⌋).toNat 0 ≤ quantileSorted s p ∧
      quantileSorted s p ≤ s.getD (⌈p * ((s.length : ℚ) - 1)⌉).toNat 0 := by
  have hlen : 1 ≤ s.length := List.length_pos.mpr hn
  have hlenq : (1 : ℚ) ≤ (s.length : ℚ) := by exact_mod_cast hlen
  set H : ℚ := p * ((s.length : ℚ) - 1) with hH
  have hH0 : 0 ≤ H := mul_nonneg h0 (by linarith)
  have hHle : H ≤ (s.length : ℚ) - 1 := by
    have := mul_le_mul_of_nonneg_right h1 (show (0:ℚ) ≤ (s.length : ℚ) - 1 by linarith)
    simpa using this
  have hfl0 : (0 : ℤ) ≤ ⌊H⌋ := Int.le_floor.mpr (by exact_mod_cast hH0)
  have hceil_le : ⌈H⌉ ≤ (s.length : ℤ) - 1 := by
    rw [Int.ceil_le]
    push_cast
    exact hHle
  have hcn : (⌈H⌉).toNat < s.length := by
    have h1' : (⌈H⌉).toNat ≤ ((s.length : ℤ) - 1).toNat :=
      Int.toNat_le_toNat hceil_le
    have h2' : ((s.length : ℤ) - 1).toNat = s.length - 1 := by
      omega
    omega
  have hic : (⌊H⌋).toNat ≤ (⌈H⌉).toNat :=
    Int.toNat_le_toNat (Int.floor_le_ceil H)
  have hlohi : s.getD (⌊H⌋).toNat 0 ≤ s.getD (⌈H⌉).toNat 0 :=
    sorted_getD_mono s hs hic hcn
  have hf0 : 0 ≤ H - (⌊H⌋ : ℚ) := by
    have := Int.floor_le H
    linarith
  have hf1 : H - (⌊H⌋ : ℚ) < 1 := by
    have := Int.lt_floor_add_one H
    linarith
  unfold quantileSorted
  rw [← hH]
  constructor
  · have := mul_nonneg hf0 (sub_nonneg.mpr hlohi)
    linarith
  · nlinarith [mul_nonneg (show (0:ℚ) ≤ 1 - (H - (⌊H⌋ : ℚ)) by linarith)
      (sub_nonneg.mpr hlohi)]

/-- The interpolated quantile is monotone in the probability, so the
first quartile never exceeds the third. -/
theorem quantileSorted_mono (s : List ℚ) (hs : s.Sorted (· ≤ ·)) (hn : s ≠ [])
    (p q : ℚ) (h0 : 0 ≤ p) (hpq : p ≤ q) (h1 : q ≤ 1) :
    quantileSorted s p ≤ quantileSorted s q := by
  have hlen : 1 ≤ s.length := List.length_pos.mpr hn
  have hlenq : (1 : ℚ) ≤ (s.length : ℚ) := by exact_mod_cast hlen
  have hq0 : 0 ≤ q := h0.trans hpq
  have hp1 : p ≤ 1 := hpq.trans h1
  set H : ℚ := p * ((s.length : ℚ) - 1) with hH
  set H' : ℚ := q * ((s.length : ℚ) - 1) with hH'
  have hb1 := quantileSorted_bounds s hs hn p h0 hp1
  have hb2 := quantileSorted_bounds s hs hn q hq0 h1
  have hHH' : H ≤ H' := mul_le_mul_of_nonneg_right hpq (by linarith)
  have hH0 : 0 ≤ H := mul_nonneg h0 (by linarith)
  have hH'0 : 0 ≤ H' := mul_nonneg hq0 (by linarith)
  have hH'le : H' ≤ (s.length : ℚ) - 1 := by
    have := mul_le_mul_of_nonneg_right h1
      (show (0:ℚ) ≤ (s.length : ℚ) - 1 by linarith)
    simpa using this
  have hHle : H ≤ (s.length : ℚ) - 1 := hHH'.trans hH'le
  have hfl0 : (0 : ℤ) ≤ ⌊H⌋ := Int.le_floor.mpr (by exact_mod_cast hH0)
  have hfl'0 : (0 : ℤ) ≤ ⌊H'⌋ := Int.le_floor.mpr (by exact_mod_cast hH'0)
  have hceil_le : ⌈H⌉ ≤ (s.length : ℤ) - 1 := by
    rw [Int.ceil_le]; push_cast; exact hHle
  have hceil'_le : ⌈H'⌉ ≤ (s.length : ℤ) - 1 := by
    rw [Int.ceil_le]; push_cast; exact hH'le
  have hcn' : (⌈H'⌉).toNat < s.length := by
    have h1' : (⌈H'⌉).toNat ≤ ((s.length : ℤ) - 1).toNat :=
      Int.toNat_le_toNat hceil'_le
    omega
  have hfn' : (⌊H'⌋).toNat < s.length := by
    have h1' : (⌊H'⌋).toNat ≤ (⌈H'⌉).toNat :=
      Int.toNat_le_toNat (Int.floor_le_ceil H')
    omega
  have hfl : ⌊H⌋ ≤ ⌊H'⌋ := Int.floor_le_floor hHH'
  rcases lt_or_eq_of_le hfl with hlt | hfleq
  · have hmid : s.getD (⌈H⌉).toNat 0 ≤ s.getD (⌊H'⌋).toNat 0 := by
      refine sorted_getD_mono s hs ?_ hfn'
      refine Int.toNat_le_toNat ?_
      have := Int.ceil_le_floor_add_one H
      omega
    exact hb1.2.trans (hmid.trans hb2.1)
  · by_cases hceq : ⌈H⌉ = ⌈H'⌉
    · have hlh : s.getD (⌊H'⌋).toNat 0 ≤ s.getD (⌈H'⌉).toNat 0 :=
        sorted_getD_mono s hs (Int.toNat_le_toNat (Int.floor_le_ceil H')) hcn'
      unfold quantileSorted
      rw [← hH, ← hH', hfleq, hceq]
      nlinarith [mul_nonneg (sub_nonneg.mpr hHH') (sub_nonneg.mpr hlh)]
    · have hcc : ⌈H⌉ ≤ ⌈H'⌉ := Int.ceil_le_ceil hHH'
      have h1c : ⌈H'⌉ ≤ ⌊H'⌋ + 1 := Int.ceil_le_floor_add_one H'
      have h2c : ⌊H⌋ ≤ ⌈H⌉ := Int.floor_le_ceil H
      have hceilH : ⌈H⌉ = ⌊H⌋ := by
        have : ⌈H⌉ < ⌈H'⌉ := lt_of_le_of_ne hcc hceq
        omega
      have hHint : (⌊H⌋ : ℚ) = H := by
        have hup := Int.le_ceil H
        rw [hceilH] at hup
        have hdn := Int.floor_le H
        linarith
      have hqp : quantileSorted s p = s.getD (⌊H⌋).toNat 0 := by
        unfold quantileSorted
        rw [← hH]
        have hzero : H - (⌊H⌋ : ℚ) = 0 := by linarith
        rw [hzero, zero_mul, add_zero]
      rw [hqp, hfleq]
      exact hb2.1

/-- The first quartile of a series never exceeds the third quartile. -/
theorem quantile_q1_le_q3 (l : List ℚ) (a b : ℚ)
    (h1 : quantile l (1/4) = some a) (h3 : quantile l (3/4) = some b) :
    a ≤ b := by
  cases l with
  | nil => simp [quantile] at h1
  | cons x xs =>
    simp only [quantile] at h1 h3
    have hs := sorted_sortLe (x :: xs)
    have hne : sortLe (x :: xs) ≠ [] := by
      have hl := (perm_sortLe (x :: xs)).length_eq
      intro hnil
      rw [hnil] at hl
      simp at hl
    have hmono := quantileSorted_mono (sortLe (x :: xs)) hs hne (1/4) (3/4)
      (by norm_num) (by norm_num) (by norm_num)
    have ha := Option.some.inj h1
    have hb := Option.some.inj h3
    rw [← ha, ← hb]
    exact hmono

/-! ## `WaterTracker.clean_timeseries`
(`notebooks/IndicateursSecheresse/data_processing/water_tracker.py`,
lines 418-434)

```python
df = timeseries.copy()                  # the input is never mutated
df = df.reset_index()
df = df.drop_duplicates(subset="date")  # keep the first occurrence
df["value"] = df["value"].apply(abs)
Q1 = df[col].quantile(0.25); Q3 = df[col].quantile(0.75)
IQR = Q3 - Q1; c = 2
min_t = Q1 - c*IQR; max_t = Q3 + c*IQR
df["outlier"] = (df[col].clip(lower=min_t, upper=max_t) != df[col])
return df[~df["outlier"]].drop("outlier", axis=1)
```

Timestamps are modelled by an opaque `ℕ` key (only their equality is
used, by `drop_duplicates`).  In the model the function is pure, so the
"never mutates its input" part of the contract holds by construction. -/

/-- One row of a raw station time series. -/
structure TSRow where
  date : ℕ
  value : ℚ
deriving DecidableEq, Repr

/-- `Series.clip(lower, upper)`: apply the lower bound, then the upper. -/
def clipQ (lo hi v : ℚ) : ℚ := min (max v lo) hi

/-- `WaterTracker.clean_timeseries`: drop duplicated dates (first row
wins), take absolute values, then drop the rows changed by clipping to
`[Q1 − 2·IQR, Q3 + 2·IQR]`.  On an empty series the quantiles are NaN
(`none`) and clipping against NaN bounds changes nothing, so every row
(of the empty frame) is kept. -/
def clean_timeseries (ts : List TSRow) : List TSRow :=
  match quantile (((ddupBy TSRow.date ts).map fun r =>
          TSRow.mk r.date |r.value|).map TSRow.value) (1/4),
        quantile (((ddupBy TSRow.date ts).map fun r =>
          TSRow.mk r.date |r.value|).map TSRow.value) (3/4) with
  | some q1, some q3 =>
      ((ddupBy TSRow.date ts).map fun r => TSRow.mk r.date |r.value|).filter
        fun r => clipQ (q1 - 2 * (q3 - q1)) (q3 + 2 * (q3 - q1)) r.value
          = r.value
  | _, _ => (ddupBy TSRow.date ts).map fun r => TSRow.mk r.date |r.value|

/-- A value survives clipping to a non-degenerate interval exactly when
it already lies in the interval. -/
theorem clipQ_eq_self_iff (lo hi v : ℚ) (h : lo ≤ hi) :
    clipQ lo hi v = v ↔ (lo ≤ v ∧ v ≤ hi) := by
  unfold clipQ
  constructor
  · intro hc
    constructor
    · rw [← hc]
      exact le_min (le_max_right v lo) h
    · rw [← hc]
      exact min_le_right _ _
  · rintro ⟨hl, hr⟩
    rw [max_eq_left hl]
    exact min_eq_left hr

/-- C5: `clean_timeseries` first drops the rows whose timestamp repeats
an earlier one (keeping the first), replaces every value by its
absolute value, and then drops exactly those rows whose value lies
outside `[Q1 − 2·IQR, Q3 + 2·IQR]`, `Q1`/`Q3` being the linearly
interpolated 25th/75th percentiles of the absolute values and
`IQR = Q3 − Q1`.  (The model is a pure function of the input list, so
the input series is not mutated.) -/
theorem c5_clean_timeseries (ts : List TSRow) (a b : ℚ)
    (h1 : quantile (((ddupBy TSRow.date ts).map fun r =>
        TSRow.mk r.date |r.value|).map TSRow.value) (1/4) = some a)
    (h3 : quantile (((ddupBy TSRow.date ts).map fun r =>
        TSRow.mk r.date |r.value|).map TSRow.value) (3/4) = some b) :
    clean_timeseries ts =
      ((ddupBy TSRow.date ts).map fun r => TSRow.mk r.date |r.value|).filter
        fun r => decide (a - 2 * (b - a) ≤ r.value ∧
          r.value ≤ b + 2 * (b - a)) := by
  have hab : a ≤ b := quantile_q1_le_q3 _ a b h1 h3
  unfold clean_timeseries
  rw [h1, h3]
  refine List.filter_congr ?_
  intro r hr
  have hiff := clipQ_eq_self_iff (a - 2 * (b - a)) (b + 2 * (b - a)) r.value
    (by linarith)
  rw [decide_eq_decide]
  exact hiff

/-- The concrete series of the spec's scenario 5. -/
def ts5 : List TSRow := [⟨0, 1⟩, ⟨1, 2⟩, ⟨2, 3⟩, ⟨3, 4⟩, ⟨4, 1000⟩]

/-- Witness for C5 (the spec's scenario 5): on values `[1,2,3,4,1000]`
the quartiles of the absolute values are `2` and `4`, the bounds
`[-2, 8]`, so `1000` is dropped and exactly the four other rows stay. -/
theorem c5_clean_timeseries_witness :
    clean_timeseries ts5 = [⟨0, 1⟩, ⟨1, 2⟩, ⟨2, 3⟩, ⟨3, 4⟩] ∧
      (clean_timeseries ts5).length = 4 := by
  have h1 : quantile (((ddupBy TSRow.date ts5).map fun r =>
      TSRow.mk r.date |r.value|).map TSRow.value) (1/4) = some 2 := by
    norm_num [ts5, ddupBy, quantile, quantileSorted, sortLe, insertLe,
      List.getD, Int.toNat]
  have h3 : quantile (((ddupBy TSRow.date ts5).map fun r =>
      TSRow.mk r.date |r.value|).map TSRow.value) (3/4) = some 4 := by
    norm_num [ts5, ddupBy, quantile, quantileSorted, sortLe, insertLe,
      List.getD, Int.toNat]
  have h := c5_clean_timeseries ts5 2 4 h1 h3
  rw [h]
  norm_num [ts5, ddupBy, List.filter_cons]

/-- `clean_timeseries` either returns the de-duplicated absolute-value
rows unchanged (empty-series case) or a filtering of them. -/
theorem clean_timeseries_cases (ts : List TSRow) :
    clean_timeseries ts =
      ((ddupBy TSRow.date ts).map fun r => TSRow.mk r.date |r.value|) ∨
    ∃ p : TSRow → Bool, clean_timeseries ts =
      ((ddupBy TSRow.date ts).map fun r => TSRow.mk r.date |r.value|).filter
        p := by
  unfold clean_timeseries
  cases h1 : quantile (((ddupBy TSRow.date ts).map fun r =>
      TSRow.mk r.date |r.value|).map TSRow.value) (1/4) with
  | none => exact Or.inl rfl
  | some q1 =>
    cases h3 : quantile (((ddupBy TSRow.date ts).map fun r =>
        TSRow.mk r.date |r.value|).map TSRow.value) (3/4) with
    | none => exact Or.inl rfl
    | some q3 => exact Or.inr ⟨_, rfl⟩

/-- The 6-row series on which the outlier filter is not idempotent. -/
def ts6 : List TSRow :=
  [⟨0, 1⟩, ⟨1, 1⟩, ⟨2, 1⟩, ⟨3, 1⟩, ⟨4, 5⟩, ⟨5, 100⟩]

set_option maxHeartbeats 2000000 in
/-- C6, counterexample: on values `[1,1,1,1,5,100]` one pass has
quartiles `1` and `4`, bounds `[-5, 10]`, and drops only `100`; the
surviving values `[1,1,1,1,5]` have quartiles `1` and `1`, bounds
`[1, 1]`, so a second pass also drops the `5` — the filter is not
idempotent. -/
theorem c6_counterexample_not_idempotent :
    clean_timeseries (clean_timeseries ts6) ≠ clean_timeseries ts6 := by
  have habs6 : ((ddupBy TSRow.date ts6).map fun r =>
      TSRow.mk r.date |r.value|) = ts6 := by
    norm_num [ts6, ddupBy]
  have hc1 : ⌈(5/4 : ℚ)⌉ = 2 := by
    rw [Int.ceil_eq_iff]
    norm_num
  have hc3 : ⌈(15/4 : ℚ)⌉ = 4 := by
    rw [Int.ceil_eq_iff]
    norm_num
  have hq1 : quantile (ts6.map TSRow.value) (1/4) = some 1 := by
    norm_num [ts6, quantile, quantileSorted, sortLe, insertLe, List.getD,
      Int.toNat, hc1]
  have hq3 : quantile (ts6.map TSRow.value) (3/4) = some 4 := by
    norm_num [ts6, quantile, quantileSorted, sortLe, insertLe, List.getD,
      Int.toNat, hc3]
  have h1 : clean_timeseries ts6 =
      [⟨0, 1⟩, ⟨1, 1⟩, ⟨2, 1⟩, ⟨3, 1⟩, ⟨4, 5⟩] := by
    unfold clean_timeseries
    rw [habs6, hq1, hq3]
    norm_num [ts6, clipQ, List.filter_cons]
  have habs5 : ((ddupBy TSRow.date
      [(⟨0, 1⟩ : TSRow), ⟨1, 1⟩, ⟨2, 1⟩, ⟨3, 1⟩, ⟨4, 5⟩]).map fun r =>
      TSRow.mk r.date |r.value|) =
      [⟨0, 1⟩, ⟨1, 1⟩, ⟨2, 1⟩, ⟨3, 1⟩, ⟨4, 5⟩] := by
    norm_num [ddupBy]
  have hq1' : quantile (([(⟨0, 1⟩ : TSRow), ⟨1, 1⟩, ⟨2, 1⟩, ⟨3, 1⟩,
      ⟨4, 5⟩]).map TSRow.value) (1/4) = some 1 := by
    norm_num [quantile, quantileSorted, sortLe, insertLe, List.getD, Int.toNat]
  have hq3' : quantile (([(⟨0, 1⟩ : TSRow), ⟨1, 1⟩, ⟨2, 1⟩, ⟨3, 1⟩,
      ⟨4, 5⟩]).map TSRow.value) (3/4) = some 1 := by
    norm_num [quantile, quantileSorted, sortLe, insertLe, List.getD, Int.toNat]
  have h2 : clean_timeseries [⟨0, 1⟩, ⟨1, 1⟩, ⟨2, 1⟩, ⟨3, 1⟩, ⟨4, 5⟩] =
      [⟨0, 1⟩, ⟨1, 1⟩, ⟨2, 1⟩, ⟨3, 1⟩] := by
    unfold clean_timeseries
    rw [habs5, hq1', hq3']
    norm_num [clipQ, List.filter_cons]
  rw [h1, h2]
  simp

/-- C6, amended: a second application of `clean_timeseries` never adds,
reorders or duplicates rows — duplicate-date removal and the absolute
value are idempotent, so the second pass is a pure re-filtering of the
first output and returns a subsequence of it; but the quartiles are
recomputed on the filtered data, so it may drop further rows (the
filter is not idempotent in general, and the result is unchanged only
when every surviving value lies within the recomputed bounds). -/
theorem c6_second_pass_sublist (ts : List TSRow) :
    (clean_timeseries (clean_timeseries ts)).Sublist (clean_timeseries ts) := by
  set out := clean_timeseries ts with hout
  have hshape := clean_timeseries_cases ts
  have hsub : out.Sublist ((ddupBy TSRow.date ts).map fun r =>
      TSRow.mk r.date |r.value|) := by
    rcases hshape with h | ⟨p, h⟩
    · rw [hout, h]
    · rw [hout, h]
      exact List.filter_sublist _
  have hmem_abs : ∀ r ∈ out, TSRow.mk r.date |r.value| = r := by
    intro r hr
    obtain ⟨r', _, rfl⟩ := List.mem_map.mp (hsub.subset hr)
    simp [abs_abs]
  have habsmap : out.map (fun r => TSRow.mk r.date |r.value|) = out := by
    have h := List.map_congr_left (g := @id TSRow) hmem_abs
    rw [h, List.map_id]
  have hnodup : (out.map TSRow.date).Nodup := by
    have h1 : (out.map TSRow.date).Sublist
        (((ddupBy TSRow.date ts).map fun r =>
          TSRow.mk r.date |r.value|).map TSRow.date) := hsub.map _
    have h2 : (((ddupBy TSRow.date ts).map fun r =>
        TSRow.mk r.date |r.value|).map TSRow.date) =
        (ddupBy TSRow.date ts).map TSRow.date := by
      rw [List.map_map]
      exact List.map_congr_left fun a _ => rfl
    have h3 := nodup_map_key_ddupBy TSRow.date ts
    rw [h2] at h1
    exact List.Nodup.sublist h1 h3
  have hdd : ddupBy TSRow.date out = out := ddupBy_eq_self _ _ hnodup
  unfold clean_timeseries
  rw [hdd, habsmap]
  cases h1 : quantile (out.map TSRow.value) (1/4) with
  | none => exact List.Sublist.refl _
  | some q1 =>
    cases h3 : quantile (out.map TSRow.value) (3/4) with
    | none => exact List.Sublist.refl _
    | some q3 => exact List.filter_sublist _

/-! ## `RestrictionEau.clean_all_restriction_data`
(`notebooks/ImpactSecheresse/RestrictionEauClass.py`, lines 77-121)

The aggregation core of the method, applied to the per-day
(department, date, level-code) rows built upstream: group by
`(departement, date)` and reduce to the `max` level code (the worst
level of the day wins), derive the year (and, with
`filter_per_month=True`, the month) bucket, drop the date column,
`drop_duplicates`, and `groupby(bucket + level).count(departement)` —
counting, per temporal bucket and level, the rows, which after the
de-duplication are exactly the distinct departments that held that
level on some day of the bucket.  Departments with no data in a bucket
simply produce no row (`groupby` never zero-fills). -/

/-- One input row: department, calendar day, restriction level code. -/
structure RRow where
  dep : ℕ
  y : ℕ
  m : ℕ
  d : ℕ
  lvl : ℕ
deriving DecidableEq, Repr

/-- The `(departement, date)` group key of a row. -/
def RRow.dayKey (r : RRow) : ℕ × ℕ × ℕ × ℕ := (r.dep, r.y, r.m, r.d)

/-- A temporal bucket: the year and, in monthly mode, the month. -/
abbrev BKey := ℕ × Option ℕ

/-- `groupby(['departement','date'])['numero_niveau'].max()`: the worst
level a department reached on a given day. -/
def maxLvl (rows : List RRow) (k : ℕ × ℕ × ℕ × ℕ) : ℕ :=
  ((rows.filter fun r => r.dayKey = k).map RRow.lvl).foldr max 0

/-- The per-(department, day) reduction: one row per distinct group key,
carrying the group's maximal level. -/
def dailyMax (rows : List RRow) : List ((ℕ × ℕ × ℕ × ℕ) × ℕ) :=
  (ddup (rows.map RRow.dayKey)).map fun k => (k, maxLvl rows k)

/-- The temporal bucket of a date: `annee`, plus `mois` when
`filter_per_month` is set. -/
def bucketOf (monthly : Bool) (y m : ℕ) : BKey :=
  (y, if monthly then some m else none)

/-- Bucket rows after dropping the date column and `drop_duplicates`:
one row per distinct (department, bucket, level) triple. -/
def bucketRows (monthly : Bool) (rows : List RRow) : List (ℕ × BKey × ℕ) :=
  ddup ((dailyMax rows).map fun p =>
    (p.1.1, bucketOf monthly p.1.2.1 p.1.2.2.1, p.2))

/-- `groupby([annee(, mois), numero_niveau])['departement'].count()`:
for every (bucket, level) key present, the number of de-duplicated rows
holding it. -/
def aggregateCounts (monthly : Bool) (rows : List RRow) :
    List ((BKey × ℕ) × ℕ) :=
  (ddup ((bucketRows monthly rows).map fun t => (t.2.1, t.2.2))).map fun k =>
    (k, ((bucketRows monthly rows).filter fun t => (t.2.1, t.2.2) = k).length)

/-- Look a (bucket, level) key up in the aggregate table; `none` means
the bucket/level pair produced no row at all. -/
def lookupCount (out : List ((BKey × ℕ) × ℕ)) (k : BKey × ℕ) : Option ℕ :=
  (out.find? fun p => p.1 = k).map Prod.snd

/-- The spec's view: department `dep` "holds level `lvl` in bucket `bk`"
when some of its days falls in the bucket and that day's worst level is
exactly `lvl`. -/
def holdsLevel (rows : List RRow) (monthly : Bool) (dep : ℕ) (bk : BKey)
    (lvl : ℕ) : Bool :=
  rows.any fun r => decide (r.dep = dep) &&
    decide (bucketOf monthly r.y r.m = bk) &&
    decide (maxLvl rows r.dayKey = lvl)

/-- The distinct departments holding level `lvl` in bucket `bk`. -/
def holders (rows : List RRow) (monthly : Bool) (bk : BKey) (lvl : ℕ) :
    Finset ℕ :=
  (rows.map RRow.dep).toFinset.filter fun dep =>
    holdsLevel rows monthly dep bk lvl = true

/-- Whole-row `ddup` output has no duplicates. -/
theorem nodup_ddup {α : Type} [DecidableEq α] (l : List α) :
    (ddup l).Nodup := by
  have h := nodup_map_key_ddupBy (@id α) l
  simpa [ddup] using h

/-- `find?` on a table built by mapping a key list through
`k ↦ (k, g k)` finds the entry at the key, if the key occurs. -/
theorem find?_keyTable {κ β : Type} [DecidableEq κ] (ks : List κ) (g : κ → β)
    (k : κ) :
    ((ks.map fun x => (x, g x)).find? fun p => p.1 = k) =
      if k ∈ ks then some (k, g k) else none := by
  induction ks with
  | nil => simp
  | cons a t ih =>
    rw [List.map_cons, List.find?_cons]
    by_cases h : a = k
    · subst h
      simp
    · have hka : ¬ (k = a) := fun hh => h hh.symm
      simp [h, hka, ih]

/-- Membership in the de-duplicated bucket rows: a (department, bucket,
level) triple appears exactly when some row of that department falls in
the bucket with that day's maximal level. -/
theorem mem_bucketRows (monthly : Bool) (rows : List RRow) (dep : ℕ)
    (bk : BKey) (lvl : ℕ) :
    (dep, bk, lvl) ∈ bucketRows monthly rows ↔
      ∃ r ∈ rows, r.dep = dep ∧ bucketOf monthly r.y r.m = bk ∧
        maxLvl rows r.dayKey = lvl := by
  constructor
  · intro h
    unfold bucketRows at h
    rw [mem_ddup] at h
    obtain ⟨p, hp, hpe⟩ := List.mem_map.mp h
    unfold dailyMax at hp
    obtain ⟨k, hk, rfl⟩ := List.mem_map.mp hp
    rw [mem_ddup] at hk
    obtain ⟨r, hr, rfl⟩ := List.mem_map.mp hk
    simp only [RRow.dayKey, Prod.mk.injEq] at hpe
    exact ⟨r, hr, hpe.1, hpe.2.1, hpe.2.2⟩
  · rintro ⟨r, hr, h1, h2, h3⟩
    unfold bucketRows
    rw [mem_ddup]
    refine List.mem_map.mpr ⟨(r.dayKey, maxLvl rows r.dayKey), ?_, ?_⟩
    · unfold dailyMax
      refine List.mem_map.mpr ⟨r.dayKey, ?_, rfl⟩
      rw [mem_ddup]
      exact List.mem_map.mpr ⟨r, hr, rfl⟩
    · simp only [RRow.dayKey, Prod.mk.injEq]
      exact ⟨h1, h2, h3⟩

/-- `holdsLevel` unfolded to an existential over the input rows. -/
theorem holdsLevel_iff (rows : List RRow) (monthly : Bool) (dep : ℕ)
    (bk : BKey) (lvl : ℕ) :
    holdsLevel rows monthly dep bk lvl = true ↔
      ∃ r ∈ rows, r.dep = dep ∧ bucketOf monthly r.y r.m = bk ∧
        maxLvl rows r.dayKey = lvl := by
  unfold holdsLevel
  rw [List.any_eq_true]
  simp [and_assoc]

/-- The per-(bucket, level) group size equals the number of distinct
departments holding that level in that bucket. -/
theorem bucketRows_filter_length (monthly : Bool) (rows : List RRow)
    (bk : BKey) (lvl : ℕ) :
    ((bucketRows monthly rows).filter fun t =>
        (t.2.1, t.2.2) = (bk, lvl)).length =
      (holders rows monthly bk lvl).card := by
  have hBnd : (bucketRows monthly rows).Nodup := nodup_ddup _
  have hFnd := hBnd.filter fun t => decide ((t.2.1, t.2.2) = (bk, lvl))
  have hmemF : ∀ t, t ∈ (bucketRows monthly rows).filter
      (fun t => (t.2.1, t.2.2) = (bk, lvl)) ↔
      (t ∈ bucketRows monthly rows ∧ (t.2.1, t.2.2) = (bk, lvl)) := by
    intro t
    rw [List.mem_filter]
    simp
  have hFshape : ∀ t ∈ (bucketRows monthly rows).filter
      (fun t => (t.2.1, t.2.2) = (bk, lvl)), t = (t.1, bk, lvl) := by
    intro t ht
    obtain ⟨-, h2⟩ := (hmemF t).mp ht
    rcases t with ⟨a, b, c⟩
    simp only [Prod.mk.injEq] at h2
    simp [h2.1, h2.2]
  have hmapnd : (((bucketRows monthly rows).filter
      (fun t => (t.2.1, t.2.2) = (bk, lvl))).map Prod.fst).Nodup := by
    refine List.Nodup.map_on ?_ hFnd
    intro x hx y hy hxy
    calc x = (x.1, bk, lvl) := hFshape x hx
      _ = (y.1, bk, lvl) := by rw [hxy]
      _ = y := (hFshape y hy).symm
  have h3 : (((bucketRows monthly rows).filter
      (fun t => (t.2.1, t.2.2) = (bk, lvl))).map Prod.fst).toFinset =
      holders rows monthly bk lvl := by
    ext dep
    rw [List.mem_toFinset]
    constructor
    · intro hd
      obtain ⟨t, ht, rfl⟩ := List.mem_map.mp hd
      have htB := ((hmemF t).mp ht).1
      have hts := hFshape t ht
      rw [hts] at htB
      obtain ⟨r, hr, h1', h2', h3'⟩ :=
        (mem_bucketRows monthly rows t.1 bk lvl).mp htB
      unfold holders
      rw [Finset.mem_filter]
      refine ⟨?_, ?_⟩
      · rw [List.mem_toFinset]
        exact List.mem_map.mpr ⟨r, hr, h1'⟩
      · rw [holdsLevel_iff]
        exact ⟨r, hr, h1', h2', h3'⟩
    · intro hd
      unfold holders at hd
      rw [Finset.mem_filter] at hd
      obtain ⟨-, hholds⟩ := hd
      obtain ⟨r, hr, h1', h2', h3'⟩ :=
        (holdsLevel_iff rows monthly dep bk lvl).mp hholds
      refine List.mem_map.mpr ⟨(dep, bk, lvl), ?_, rfl⟩
      rw [hmemF]
      exact ⟨(mem_bucketRows monthly rows dep bk lvl).mpr
        ⟨r, hr, h1', h2', h3'⟩, rfl⟩
  calc ((bucketRows monthly rows).filter fun t =>
        (t.2.1, t.2.2) = (bk, lvl)).length
      = (((bucketRows monthly rows).filter
          (fun t => (t.2.1, t.2.2) = (bk, lvl))).map Prod.fst).length :=
        (List.length_map _ _).symm
    _ = (((bucketRows monthly rows).filter
          (fun t => (t.2.1, t.2.2) = (bk, lvl))).map Prod.fst).toFinset.card :=
        (List.toFinset_card_of_nodup hmapnd).symm
    _ = (holders rows monthly bk lvl).card := by rw [h3]

/-- A (bucket, level) key occurs among the aggregation keys exactly when
some department holds it. -/
theorem mem_aggKeys_iff (monthly : Bool) (rows : List RRow) (bk : BKey)
    (lvl : ℕ) :
    ((bk, lvl) ∈ ddup ((bucketRows monthly rows).map fun t =>
        (t.2.1, t.2.2))) ↔
      (holders rows monthly bk lvl).card ≠ 0 := by
  rw [mem_ddup]
  constructor
  · intro h
    obtain ⟨t, ht, hte⟩ := List.mem_map.mp h
    have htF : t ∈ (bucketRows monthly rows).filter
        (fun t => (t.2.1, t.2.2) = (bk, lvl)) := by
      rw [List.mem_filter]
      simpa using ⟨ht, hte⟩
    have hlen : 0 < ((bucketRows monthly rows).filter
        (fun t => (t.2.1, t.2.2) = (bk, lvl))).length := by
      refine List.length_pos.mpr fun hnil => ?_
      rw [hnil] at htF
      exact absurd htF (List.not_mem_nil t)
    rw [bucketRows_filter_length] at hlen
    omega
  · intro h
    have hlen : 0 < ((bucketRows monthly rows).filter
        (fun t => (t.2.1, t.2.2) = (bk, lvl))).length := by
      rw [bucketRows_filter_length]
      omega
    obtain ⟨t, htF⟩ := List.exists_mem_of_length_pos hlen
    rw [List.mem_filter] at htF
    refine List.mem_map.mpr ⟨t, htF.1, ?_⟩
    simpa using htF.2

/-- C8: the temporal aggregator reduces each (department, day) group to
its maximal level code — the worst level of the period wins — and then,
per temporal bucket (year, or year and month) and level code, counts
exactly the distinct departments holding that level in the bucket:
the aggregate table maps `(bucket, level)` to that cardinality, and
contains no entry at all (rather than a zero) for pairs no department
holds; de-duplication before counting makes the count insensitive to
duplicated rows, which is what the set cardinality expresses. -/
theorem c8_aggregator_counts (rows : List RRow) (monthly : Bool) (bk : BKey)
    (lvl : ℕ) :
    lookupCount (aggregateCounts monthly rows) (bk, lvl) =
      (if (holders rows monthly bk lvl).card = 0 then none
       else some (holders rows monthly bk lvl).card) := by
  unfold lookupCount aggregateCounts
  rw [find?_keyTable]
  by_cases hc : (holders rows monthly bk lvl).card = 0
  · rw [if_pos hc, if_neg (fun hmem =>
      ((mem_aggKeys_iff monthly rows bk lvl).mp hmem) hc)]
    rfl
  · rw [if_neg hc, if_pos ((mem_aggKeys_iff monthly rows bk lvl).mpr hc)]
    simp only [Option.map_some']
    rw [bucketRows_filter_length]
